import Mathlib

/-!
Shallow embedding of the ray tracer sources (`tuple.rs`, `math_utils.rs`,
`matrix.rs`, `canvas.rs`).

Modelling conventions:
* Rust `f64` scalars are modelled as exact rationals (`ℚ`); `f64::round`
  (round half away from zero) is modelled by `rustRound`.
* Rust `usize` is modelled as `ℕ`.
* Rust panics (failed `assert!`, out-of-bounds vector or array indexing,
  explicit bounds checks) are modelled by `Option`: `none` is a panic.
* `Vec<T>` is modelled as `List T`; in-bounds reads that the surrounding
  code guarantees are modelled with `List.getD`.
-/

namespace RayTracer

/-- Embeds `math_utils::EPSILON`. -/
def EPSILON : ℚ := 1 / 100000

/-- Embeds `math_utils::f64_equals`: absolute difference within `EPSILON`.
(The ULP component of the Rust margin has no meaning for exact rationals
and widens the relation only when the absolute test already fails.) -/
def f64_equals (x y : ℚ) : Bool := decide (|x - y| ≤ EPSILON)

/-- Embeds `tuple::Tuple`. -/
structure Tuple where
  x : ℚ
  y : ℚ
  z : ℚ
  w : ℚ
deriving Repr, DecidableEq

namespace Tuple

/-- Embeds `Tuple::new`. -/
def new (x y z w : ℚ) : Tuple := ⟨x, y, z, w⟩

/-- Embeds `Tuple::equals`: componentwise `f64_equals`. -/
def equals (a b : Tuple) : Bool :=
  f64_equals a.x b.x && f64_equals a.y b.y && f64_equals a.z b.z && f64_equals a.w b.w

/-- Embeds `Tuple::add`. -/
def add (a b : Tuple) : Tuple := ⟨a.x + b.x, a.y + b.y, a.z + b.z, a.w + b.w⟩

/-- Embeds `Tuple::minus`. -/
def minus (a b : Tuple) : Tuple := ⟨a.x - b.x, a.y - b.y, a.z - b.z, a.w - b.w⟩

/-- Embeds `Tuple::to_vec`. -/
def to_vec (a : Tuple) : List ℚ := [a.x, a.y, a.z, a.w]

end Tuple

/-- Embeds `tuple::Color` (a wrapper around a `Tuple` with `w = 0`). -/
structure Color where
  tuple : Tuple
deriving Repr, DecidableEq

/-- Models `f64::round`: round half away from zero. -/
def rustRound (q : ℚ) : ℤ := if q < 0 then -⌊-q + 1 / 2⌋ else ⌊q + 1 / 2⌋

namespace Color

/-- Embeds `Color::new`. -/
def new (r g b : ℚ) : Color := ⟨Tuple.new r g b 0⟩

/-- Embeds `Color::r`. -/
def r (c : Color) : ℚ := c.tuple.x

/-- Embeds `Color::g`. -/
def g (c : Color) : ℚ := c.tuple.y

/-- Embeds `Color::b`. -/
def b (c : Color) : ℚ := c.tuple.z

/-- Embeds `Color::black`. -/
def black : Color := Color.new 0 0 0

/-- Embeds `Color::ppm_str`: each channel is `round(ch * 255)`, cast to
`usize` (the cast saturates: negative values become 0, modelled by
`Int.toNat`), then `max`ed with 0 and `min`ed with 255. -/
def ppm_str (c : Color) : ℕ × ℕ × ℕ :=
  (min (max (rustRound (c.r * 255)).toNat 0) 255,
   min (max (rustRound (c.g * 255)).toNat 0) 255,
   min (max (rustRound (c.b * 255)).toNat 0) 255)

end Color

/-- Embeds `matrix::Matrix`. -/
structure Matrix where
  rows : ℕ
  cols : ℕ
  values : List (List ℚ)
deriving Repr, DecidableEq

namespace Matrix

/-- Embeds `Matrix::new`: a `rows × cols` matrix of zeros. -/
def new (rows cols : ℕ) : Matrix :=
  ⟨rows, cols, List.replicate rows (List.replicate cols 0)⟩

/-- Embeds `Matrix::from_vec`: dimensions inferred from the literal
(`cols` is the length of the first row; `v[0]` on an empty literal is a
panic in Rust, modelled here with `getD` as the claims never use it). -/
def from_vec (v : List (List ℚ)) : Matrix :=
  ⟨v.length, (v.getD 0 []).length, v⟩

/-- Embeds `Matrix::get_value` (`self.values[row][col]`; in-bounds reads). -/
def get_value (m : Matrix) (row col : ℕ) : ℚ :=
  (m.values.getD row []).getD col 0

/-- Embeds `Matrix::determinant`: the `2×2` base case returns
`a*d - b*c`; every other shape falls through to `return 0.0`. -/
def determinant (m : Matrix) : ℚ :=
  if m.rows = 2 ∧ m.cols = 2 then
    m.get_value 0 0 * m.get_value 1 1 - m.get_value 0 1 * m.get_value 1 0
  else 0

/-- Embeds `Matrix::submatrix`: drops row `row` and column `col`
(`left = values[i][0..col]`, `right = values[i][col+1..cols]`). -/
def submatrix (m : Matrix) (row col : ℕ) : Matrix :=
  from_vec (((List.range m.rows).filter (fun i => i ≠ row)).map (fun i =>
    let r := m.values.getD i []
    r.take col ++ (r.drop (col + 1)).take (m.cols - (col + 1))))

/-- Embeds `Matrix::minor`: determinant of the submatrix. -/
def minor (m : Matrix) (row col : ℕ) : ℚ :=
  (m.submatrix row col).determinant

/-- Embeds `Matrix::cofactor`. The Rust guard is `row + col % 2 == 1`;
`%` binds tighter than `+` in Rust exactly as in Lean, so the condition
is `row + (col % 2) = 1`. -/
def cofactor (m : Matrix) (row col : ℕ) : ℚ :=
  let minor := m.minor row col
  if row + col % 2 = 1 then -minor else minor

/-- Writes entry `(r, c)` of a grid, `none` when either index is out of
bounds (a Rust indexing panic). -/
def setEntry (vss : List (List ℚ)) (r c : ℕ) (q : ℚ) : Option (List (List ℚ)) :=
  if r < vss.length then
    let row := vss.getD r []
    if c < row.length then some (vss.set r (row.set c q)) else none
  else none

/-- Embeds `Matrix::transpose`. The Rust code allocates the result as
`Matrix::new(self.rows, self.cols)` (not `cols × rows`) and then writes
`transposed.values[j][i] = self.values[i][j]`; the writes index the
freshly allocated grid and panic when it is not square. -/
def transpose (m : Matrix) : Option Matrix := do
  let init := (Matrix.new m.rows m.cols).values
  let vals ← (List.range m.values.length).foldlM (fun acc i =>
    (List.range ((m.values.getD i []).length)).foldlM (fun acc2 j =>
      setEntry acc2 j i ((m.values.getD i []).getD j 0)) acc) init
  pure ⟨m.rows, m.cols, vals⟩

/-- Adds `q` to entry `i` of a flat accumulator, `none` when `i` is out
of bounds (the Rust `result[i]` array-indexing panic). -/
def addAt (l : List ℚ) (i : ℕ) (q : ℚ) : Option (List ℚ) :=
  if i < l.length then some (l.set i (l.getD i 0 + q)) else none

/-- Embeds `Matrix::multiply_tuple`: asserts a non-empty value grid and
exactly 4 columns, then accumulates row-by-tuple products into a flat
4-element array indexed by the row number. -/
def multiply_tuple (m : Matrix) (t : Tuple) : Option Tuple :=
  if m.values.isEmpty then none
  else if m.cols ≠ 4 then none
  else
    let vec := t.to_vec
    match (List.range m.rows).foldlM (fun acc i =>
        (List.range m.cols).foldlM (fun acc2 k =>
          addAt acc2 i ((m.values.getD i []).getD k 0 * vec.getD k 0)) acc)
      [0, 0, 0, 0] with
    | none => none
    | some res => some ⟨res.getD 0 0, res.getD 1 0, res.getD 2 0, res.getD 3 0⟩

end Matrix

/-- Embeds `canvas::Canvas`. -/
structure Canvas where
  width : ℕ
  height : ℕ
  pixels : List (List Color)
deriving Repr, DecidableEq

namespace Canvas

/-- Embeds `Canvas::new`: a `height × width` grid of black pixels. -/
def new (width height : ℕ) : Canvas :=
  ⟨width, height, List.replicate height (List.replicate width Color.black)⟩

/-- Shape invariant maintained by `Canvas::new` and `write_pixel`:
the grid really is `height` rows of `width` pixels. -/
def wellFormed (c : Canvas) : Prop :=
  c.pixels.length = c.height ∧ ∀ row ∈ c.pixels, row.length = c.width

instance (c : Canvas) : Decidable c.wellFormed := by
  unfold wellFormed; infer_instance

/-- Embeds `Canvas::write_pixel`: an explicit bounds check raises a
panic (modelled as `none`) when `x ≥ width || y ≥ height`, otherwise
`pixels[y][x] = color`. -/
def write_pixel (c : Canvas) (x y : ℕ) (color : Color) : Option Canvas :=
  if x ≥ c.width ∨ y ≥ c.height then none
  else some ⟨c.width, c.height, c.pixels.set y ((c.pixels.getD y []).set x color)⟩

/-- Embeds `Canvas::pixel_at` (`self.pixels[y][x]`; the claims only use
it in bounds, where the `getD` default is never hit). -/
def pixel_at (c : Canvas) (x y : ℕ) : Color :=
  (c.pixels.getD y []).getD x Color.black

end Canvas

/-- Embeds the token step of the `to_ppm` loop body: append the token
to the current line when `line.len() + s.len() + 1 <= 70`, with a
leading space when the line is non-empty, otherwise flush the line
(followed by a line break) into the result and start a new line holding
just the token. The accumulator is `(result, line)`. -/
def pushToken (acc : String × String) (s : String) : String × String :=
  if acc.2.length + s.length + 1 ≤ 70 then
    (acc.1, if acc.2.length > 0 then acc.2 ++ " " ++ s else acc.2 ++ s)
  else
    (acc.1 ++ acc.2 ++ "\n", s)

/-- The three decimal tokens one pixel contributes
(`let (r, g, b) = pixel.ppm_str(); ... val.to_string()`). -/
def Color.ppmTokens (c : Color) : List String :=
  [toString c.ppm_str.1, toString c.ppm_str.2.1, toString c.ppm_str.2.2]

/-- The tokens of one canvas row, in pixel order. -/
def rowTokens (row : List Color) : List String :=
  (row.map Color.ppmTokens).flatten

/-- Embeds the `to_ppm` header: `P3\n{width} {height}\n255\n`. -/
def ppmHeader (c : Canvas) : String :=
  "P3\n" ++ toString c.width ++ " " ++ toString c.height ++ "\n255\n"

/-- Embeds `Canvas::to_ppm`: starting from the header and an empty line
buffer, fold every row token through `pushToken`, and after each row
flush the line buffer followed by a line break. -/
def Canvas.to_ppm (c : Canvas) : String :=
  (c.pixels.foldl (fun acc row =>
    let acc2 := (rowTokens row).foldl pushToken acc
    (acc2.1 ++ acc2.2 ++ "\n", "")) (ppmHeader c, "")).1

/-- The same wrapping step as `pushToken`, but collecting the flushed
lines as a list instead of a flat string (used to state the per-line
length bound and the row-boundary property). -/
def pushTokenL (acc : List String × String) (s : String) : List String × String :=
  if acc.2.length + s.length + 1 ≤ 70 then
    (acc.1, if acc.2.length > 0 then acc.2 ++ " " ++ s else acc.2 ++ s)
  else
    (acc.1 ++ [acc.2], s)

/-- The output lines one canvas row produces: the lines flushed while
wrapping its tokens, plus the final flush at the row boundary. -/
def rowLines (row : List Color) : List String :=
  let acc := (rowTokens row).foldl pushTokenL ([], "")
  acc.1 ++ [acc.2]

/-- All body lines of the serialized canvas, row group by row group. -/
def Canvas.ppmLines (c : Canvas) : List String :=
  (c.pixels.map rowLines).flatten

/-- Joins lines, terminating every line (including the last) with a
line break. -/
def joinLines (ls : List String) : String :=
  ls.foldr (fun l acc => l ++ "\n" ++ acc) ""

/-- The 10×2 canvas of the `ppm_long_lines_splitting` test, uniformly
filled with the color `(1.0, 0.8, 0.6)`. -/
def canvas10x2 : Canvas :=
  ⟨10, 2, List.replicate 2 (List.replicate 10 (Color.new 1.0 0.8 0.6))⟩

/-- The dot product of a matrix row with a tuple viewed as a 4×1 column
vector, as the spec describes the components of `multiplyTuple`. -/
def dotRow (r : List ℚ) (t : Tuple) : ℚ :=
  ((List.range 4).map (fun k => r.getD k 0 * t.to_vec.getD k 0)).sum

/-- A concrete 2×4 matrix, used to instantiate the `multiplyTuple`
theorem. -/
def mat2x4 : Matrix := Matrix.from_vec [[1, 0, 0, 0], [0, 1, 0, 0]]

/-- A concrete 5×4 matrix: five rows, four columns. -/
def mat5x4 : Matrix :=
  Matrix.from_vec [[1, 0, 0, 0], [0, 1, 0, 0], [0, 0, 1, 0], [0, 0, 0, 1],
    [1, 1, 1, 1]]

/-- The clamping rule in the words of the spec: the channel is computed
as `round(channel * 255)` and then clamped to `[0, 255]`. -/
def clampChannelSpec (x : ℚ) : ℕ :=
  (min 255 (max 0 (rustRound (x * 255)))).toNat

/-- The repository test matrix `[[1,2,6],[-5,8,-4],[2,6,4]]`. -/
def detMat3 : Matrix :=
  Matrix.from_vec [[1, 2, 6], [-5, 8, -4], [2, 6, 4]]

/-- The repository test matrix from the cofactor unit test. -/
def cofMat3 : Matrix :=
  Matrix.from_vec [[3, 5, 0], [2, -1, -7], [6, -1, 5]]

end RayTracer

namespace RayTracer

/-- Saturating-cast-then-min-max agrees with round-then-clamp. -/
theorem toNat_min_max_eq_clamp (i : ℤ) :
    min (max i.toNat 0) 255 = (min 255 (max 0 i)).toNat := by
  omega

/-- C1: `determinant()` on the 3×3 matrix `[[1,2,6],[-5,8,-4],[2,6,4]]`
returns 0, not the Laplace expansion value -196 claimed by the spec and
asserted by the repository test `determinant3x3`: the implementation
only handles the 2×2 base case and returns `0.0` for every other shape. -/
theorem determinant_3x3_returns_zero :
    detMat3.determinant = 0 ∧ detMat3.determinant ≠ (-196 : ℚ) := by
  constructor
  · decide
  · decide

/-- C2: at `(row, col) = (2, 1)` on the cofactor unit-test matrix,
`row + col` is odd and the minor is -21, so the claimed sign rule
`(-1)^(row+col)` demands a cofactor of 21; the code tests
`row + (col % 2) == 1` instead and returns the minor un-negated, -21. -/
theorem cofactor_sign_bug_at_2_1 :
    cofMat3.minor 2 1 = -21 ∧ (2 + 1) % 2 = 1 ∧ cofMat3.cofactor 2 1 = -21 := by
  refine ⟨?_, by decide, ?_⟩ <;> with_unfolding_all decide

/-- C3: `transpose()` on the non-square 1×2 matrix `[[1,2]]` panics
(modelled as `none`): the result grid is allocated with the input shape
`rows × cols` instead of `cols × rows`, so the transposed write to row
index 1 is out of bounds. -/
theorem transpose_1x2_panics :
    (Matrix.from_vec [[1, 2]]).transpose = none := by
  decide

/-- C8: for all tuples `a`, `b`, adding `b` and then subtracting `b`
yields a tuple `equals` to `a` (the difference is exactly 0 in every
component, hence within `EPSILON`). -/
theorem add_minus_cancel_equals (a b : Tuple) :
    ((a.add b).minus b).equals a = true := by
  simp only [Tuple.add, Tuple.minus, Tuple.equals, f64_equals, Bool.and_eq_true,
    decide_eq_true_eq]
  refine ⟨⟨⟨?_, ?_⟩, ?_⟩, ?_⟩ <;>
    · rw [show ∀ p q : ℚ, p + q - q - p = 0 by intro p q; ring]
      rw [abs_zero]
      norm_num [EPSILON]

/-- C8 witness: instantiation at two concrete tuples. -/
theorem add_minus_cancel_equals_witness :
    ((Tuple.new 1 2 3 1).add (Tuple.new 5 (-6) 7 0) |>.minus
      (Tuple.new 5 (-6) 7 0)).equals (Tuple.new 1 2 3 1) = true :=
  add_minus_cancel_equals (Tuple.new 1 2 3 1) (Tuple.new 5 (-6) 7 0)

/-- C7: `ppm_str` computes each channel as `round(channel * 255)`
clamped to `[0, 255]` (the Rust saturating `as usize` cast followed by
`max 0` and `min 255` realises exactly that clamp), every component is
at most 255, and the out-of-range examples behave as stated:
a -0.5 channel yields 0 and a 1.5 channel yields 255. -/
theorem ppm_str_is_round_then_clamp (c : Color) :
    c.ppm_str = (clampChannelSpec c.r, clampChannelSpec c.g, clampChannelSpec c.b) ∧
    c.ppm_str.1 ≤ 255 ∧ c.ppm_str.2.1 ≤ 255 ∧ c.ppm_str.2.2 ≤ 255 ∧
    (Color.new (-0.5) 1.5 0).ppm_str = (0, 255, 0) := by
  refine ⟨?_, ?_, ?_, ?_, ?_⟩
  · simp only [Color.ppm_str, clampChannelSpec, toNat_min_max_eq_clamp]
  · exact Nat.min_le_right _ _
  · exact Nat.min_le_right _ _
  · exact Nat.min_le_right _ _
  · with_unfolding_all decide

/-- C6: `write_pixel` raises a bounds violation (`none`) exactly when
`x ≥ width` or `y ≥ height`; on a non-empty well-formed canvas, writing
at `(width-1, height-1)` succeeds and stores the color there. -/
theorem write_pixel_bounds (c : Canvas) (x y : ℕ) (col : Color)
    (hwf : c.wellFormed) :
    (c.write_pixel x y col = none ↔ (c.width ≤ x ∨ c.height ≤ y)) ∧
    (1 ≤ c.width → 1 ≤ c.height →
      ∃ c', c.write_pixel (c.width - 1) (c.height - 1) col = some c' ∧
        c'.pixel_at (c.width - 1) (c.height - 1) = col) := by
  constructor
  · unfold Canvas.write_pixel
    split
    · simp only [true_iff]
      omega
    · next h =>
      simp only [reduceCtorEq, false_iff]
      omega
  · intro hw hh
    have hx : c.width - 1 < c.width := by omega
    have hy : c.height - 1 < c.height := by omega
    refine ⟨⟨c.width, c.height, c.pixels.set (c.height - 1)
      ((c.pixels.getD (c.height - 1) []).set (c.width - 1) col)⟩, ?_, ?_⟩
    · unfold Canvas.write_pixel
      rw [if_neg (by omega)]
    · have hylen : c.height - 1 < c.pixels.length := by rw [hwf.1]; exact hy
      have hrow : (c.pixels.getD (c.height - 1) []).length = c.width := by
        apply hwf.2
        rw [List.getD_eq_getElem?_getD, List.getElem?_eq_getElem hylen]
        simp only [Option.getD_some]
        exact List.getElem_mem hylen
      have hg : c.pixels.getD (c.height - 1) [] = c.pixels[c.height - 1] := by
        rw [List.getD_eq_getElem?_getD, List.getElem?_eq_getElem hylen]; rfl
      have hxlen : c.width - 1 < (c.pixels[c.height - 1]).length := by
        rw [← hg, hrow]; exact hx
      simp [Canvas.pixel_at, List.getD_eq_getElem?_getD, List.getElem?_set_self,
        hylen, hxlen]

/-- C6 witness: instantiation on the well-formed 3×2 canvas. -/
theorem write_pixel_bounds_witness :
    ((Canvas.new 3 2).write_pixel 3 0 Color.black = none ↔ (3 ≤ 3 ∨ 2 ≤ 0)) ∧
    (1 ≤ 3 → 1 ≤ 2 →
      ∃ c', (Canvas.new 3 2).write_pixel (3 - 1) (2 - 1) Color.black = some c' ∧
        c'.pixel_at (3 - 1) (2 - 1) = Color.black) :=
  write_pixel_bounds (Canvas.new 3 2) 3 0 Color.black (by decide)

/-- C10: an in-bounds `write_pixel` succeeds, stores the color at
`(x, y)`, keeps the width and height, and leaves every other in-bounds
pixel unchanged. -/
theorem write_pixel_frame (c : Canvas) (x y : ℕ) (col : Color)
    (hwf : c.wellFormed) (hx : x < c.width) (hy : y < c.height) :
    ∃ c', c.write_pixel x y col = some c' ∧
      c'.width = c.width ∧ c'.height = c.height ∧
      c'.pixel_at x y = col ∧
      ∀ x' y', x' < c.width → y' < c.height → (x', y') ≠ (x, y) →
        c'.pixel_at x' y' = c.pixel_at x' y' := by
  have hylen : y < c.pixels.length := by rw [hwf.1]; exact hy
  have hmem : c.pixels.getD y [] ∈ c.pixels := by
    rw [List.getD_eq_getElem?_getD, List.getElem?_eq_getElem hylen]
    simp only [Option.getD_some]
    exact List.getElem_mem hylen
  have hrow : (c.pixels.getD y []).length = c.width := hwf.2 _ hmem
  refine ⟨⟨c.width, c.height, c.pixels.set y ((c.pixels.getD y []).set x col)⟩,
    ?_, rfl, rfl, ?_, ?_⟩
  · unfold Canvas.write_pixel
    rw [if_neg (by omega)]
  · have hg : c.pixels.getD y [] = c.pixels[y] := by
      rw [List.getD_eq_getElem?_getD, List.getElem?_eq_getElem hylen]; rfl
    have hxlen : x < (c.pixels[y]).length := by rw [← hg, hrow]; exact hx
    simp [Canvas.pixel_at, List.getD_eq_getElem?_getD, List.getElem?_set_self,
      hylen, hxlen]
  · intro x' y' hx' hy' hne
    by_cases hyy : y' = y
    · subst hyy
      have hxx : x ≠ x' := by
        intro hc
        exact hne (by rw [hc])
      simp [Canvas.pixel_at, List.getD_eq_getElem?_getD, List.getElem?_set_self,
        List.getElem?_set_ne hxx, hylen]
    · have hyy' : y ≠ y' := fun hc => hyy hc.symm
      simp [Canvas.pixel_at, List.getD_eq_getElem?_getD,
        List.getElem?_set_ne hyy']

theorem joinLines_cons (l : String) (ls : List String) :
    joinLines (l :: ls) = l ++ "\n" ++ joinLines ls := rfl

theorem joinLines_singleton (l : String) : joinLines [l] = l ++ "\n" := by
  simp [joinLines, String.append_empty]

theorem joinLines_append (a b : List String) :
    joinLines (a ++ b) = joinLines a ++ joinLines b := by
  induction a with
  | nil => simp [joinLines, String.empty_append]
  | cons l ls ih =>
    simp only [List.cons_append, joinLines_cons, ih, String.append_assoc]

/-- Folding `pushTokenL` only ever appends to the accumulated line
list: the already-flushed lines are a fixed front segment. -/
theorem foldl_pushTokenL_fst (ts : List String) (ls : List String) (l : String) :
    ts.foldl pushTokenL (ls, l) =
      (ls ++ (ts.foldl pushTokenL ([], l)).1, (ts.foldl pushTokenL ([], l)).2) := by
  induction ts generalizing ls l with
  | nil => simp
  | cons t ts ih =>
    simp only [List.foldl_cons]
    by_cases h : l.length + t.length + 1 ≤ 70
    · rw [show pushTokenL (ls, l) t =
          (ls, if l.length > 0 then l ++ " " ++ t else l ++ t) by
            simp [pushTokenL, h]]
      rw [show pushTokenL ([], l) t =
          (([] : List String), if l.length > 0 then l ++ " " ++ t else l ++ t) by
            simp [pushTokenL, h]]
      exact ih ls _
    · rw [show pushTokenL (ls, l) t = (ls ++ [l], t) by simp [pushTokenL, h]]
      rw [show pushTokenL ([], l) t = ([l], t) by simp [pushTokenL, h]]
      rw [ih (ls ++ [l]) t, ih [l] t]
      simp [List.append_assoc]

/-- The flat-string wrapping fold of `to_ppm` refines the line-list
fold: the result string is the initial string followed by the flushed
lines, each terminated by a line break. -/
theorem foldl_pushToken_eq (ts : List String) (r l : String) :
    ts.foldl pushToken (r, l) =
      (r ++ joinLines (ts.foldl pushTokenL ([], l)).1,
        (ts.foldl pushTokenL ([], l)).2) := by
  induction ts generalizing r l with
  | nil => simp [joinLines, String.append_empty]
  | cons t ts ih =>
    simp only [List.foldl_cons]
    by_cases h : l.length + t.length + 1 ≤ 70
    · rw [show pushToken (r, l) t =
          (r, if l.length > 0 then l ++ " " ++ t else l ++ t) by
            simp [pushToken, h]]
      rw [show pushTokenL ([], l) t =
          (([] : List String), if l.length > 0 then l ++ " " ++ t else l ++ t) by
            simp [pushTokenL, h]]
      exact ih r _
    · rw [show pushToken (r, l) t = (r ++ l ++ "\n", t) by simp [pushToken, h]]
      rw [show pushTokenL ([], l) t = ([l], t) by simp [pushTokenL, h]]
      rw [ih (r ++ l ++ "\n") t, foldl_pushTokenL_fst ts [l] t, joinLines_append]
      simp only [joinLines_singleton, String.append_assoc]

/-- `to_ppm` factors through the per-row line lists: the output is the
header followed by every row group's lines, each line (the last line of
a row group included) terminated by a line break. In particular a row
boundary always forces a line break and two rows never share a line. -/
theorem to_ppm_eq_joinLines (c : Canvas) :
    c.to_ppm = ppmHeader c ++ joinLines c.ppmLines := by
  unfold Canvas.to_ppm Canvas.ppmLines
  generalize hr : ppmHeader c = r
  clear hr
  induction c.pixels generalizing r with
  | nil => simp [joinLines, String.append_empty]
  | cons row rest ih =>
    simp only [List.foldl_cons, List.map_cons, List.flatten_cons]
    rw [foldl_pushToken_eq]
    simp only
    rw [ih, joinLines_append]
    unfold rowLines
    rw [joinLines_append]
    simp only [joinLines_singleton, String.append_assoc]

/-- Wrapping invariant: when every token is at most 69 characters, every
flushed line and the pending line stay at most 70 characters. -/
theorem foldl_pushTokenL_bound (ts : List String) (ls : List String) (l : String)
    (hts : ∀ t ∈ ts, t.length ≤ 69) (hls : ∀ x ∈ ls, x.length ≤ 70)
    (hl : l.length ≤ 70) :
    (∀ x ∈ (ts.foldl pushTokenL (ls, l)).1, x.length ≤ 70) ∧
      (ts.foldl pushTokenL (ls, l)).2.length ≤ 70 := by
  induction ts generalizing ls l with
  | nil => exact ⟨hls, hl⟩
  | cons t ts ih =>
    have ht : t.length ≤ 69 := hts t (by simp)
    have hts' : ∀ t' ∈ ts, t'.length ≤ 69 := fun t' h' => hts t' (by simp [h'])
    simp only [List.foldl_cons]
    by_cases h : l.length + t.length + 1 ≤ 70
    · rw [show pushTokenL (ls, l) t =
          (ls, if l.length > 0 then l ++ " " ++ t else l ++ t) by
            simp [pushTokenL, h]]
      apply ih _ _ hts' hls
      by_cases hz : l.length > 0
      · rw [if_pos hz]
        simp only [String.length_append]
        have : (" " : String).length = 1 := rfl
        omega
      · rw [if_neg hz]
        simp only [String.length_append]
        omega
    · rw [show pushTokenL (ls, l) t = (ls ++ [l], t) by simp [pushTokenL, h]]
      apply ih _ _ hts'
      · intro x hx
        rcases List.mem_append.1 hx with hx | hx
        · exact hls x hx
        · simp at hx
          subst hx
          exact hl
      · omega

set_option maxRecDepth 4000 in
/-- Every decimal numeral of a number up to 255 has at most 3 digits. -/
theorem toString_length_le (n : ℕ) (h : n < 256) : (toString n).length ≤ 3 := by
  revert h
  revert n
  decide

/-- Both bounds of `ppm_str` components, shared by C5 and C7. -/
theorem ppm_str_components_le (c : Color) :
    c.ppm_str.1 ≤ 255 ∧ c.ppm_str.2.1 ≤ 255 ∧ c.ppm_str.2.2 ≤ 255 :=
  ⟨Nat.min_le_right _ _, Nat.min_le_right _ _, Nat.min_le_right _ _⟩

/-- Every row token is a clamped channel numeral, hence short. -/
theorem rowTokens_length_le (row : List Color) :
    ∀ t ∈ rowTokens row, t.length ≤ 69 := by
  intro t ht
  unfold rowTokens at ht
  rw [List.mem_flatten] at ht
  obtain ⟨l, hl, htl⟩ := ht
  rw [List.mem_map] at hl
  obtain ⟨c, _, hcl⟩ := hl
  subst hcl
  have hb := ppm_str_components_le c
  have h3 : t.length ≤ 3 := by
    simp only [Color.ppmTokens, List.mem_cons, List.not_mem_nil, or_false] at htl
    rcases htl with h | h | h <;>
      · subst h
        exact toString_length_le _ (by omega)
  omega

/-- C10 witness: instantiation on the well-formed 3×2 canvas. -/
theorem write_pixel_frame_witness :
    ∃ c', (Canvas.new 3 2).write_pixel 1 1 Color.black = some c' ∧
      c'.width = (Canvas.new 3 2).width ∧ c'.height = (Canvas.new 3 2).height ∧
      c'.pixel_at 1 1 = Color.black ∧
      ∀ x' y', x' < (Canvas.new 3 2).width → y' < (Canvas.new 3 2).height →
        (x', y') ≠ (1, 1) →
        c'.pixel_at x' y' = (Canvas.new 3 2).pixel_at x' y' :=
  write_pixel_frame (Canvas.new 3 2) 1 1 Color.black (by decide)
    (by decide) (by decide)

set_option maxRecDepth 100000 in
/-- C5: (1) the serialized output is the header followed by the
per-row line groups, every line terminated by a line break — so each
canvas row's tokens end with a line break and are never merged with the
next row; (2) no body line exceeds 70 characters; (3) on the 10×2
canvas uniformly filled with `(1.0, 0.8, 0.6)` each row wraps after the
17th token, and the full output is the expected golden string. -/
theorem to_ppm_wrapping :
    (∀ c : Canvas, c.to_ppm = ppmHeader c ++ joinLines c.ppmLines) ∧
    (∀ c : Canvas, ∀ l ∈ c.ppmLines, l.length ≤ 70) ∧
    rowLines (List.replicate 10 (Color.new 1.0 0.8 0.6)) =
      ["255 204 153 255 204 153 255 204 153 255 204 153 255 204 153 255 204",
       "153 255 204 153 255 204 153 255 204 153 255 204 153"] ∧
    canvas10x2.to_ppm =
      "P3\n10 2\n255\n" ++
      "255 204 153 255 204 153 255 204 153 255 204 153 255 204 153 255 204\n" ++
      "153 255 204 153 255 204 153 255 204 153 255 204 153\n" ++
      "255 204 153 255 204 153 255 204 153 255 204 153 255 204 153 255 204\n" ++
      "153 255 204 153 255 204 153 255 204 153 255 204 153\n" := by
  refine ⟨to_ppm_eq_joinLines, ?_, ?_, ?_⟩
  · intro c l hl
    unfold Canvas.ppmLines at hl
    rw [List.mem_flatten] at hl
    obtain ⟨g, hg, hlg⟩ := hl
    rw [List.mem_map] at hg
    obtain ⟨row, _, hrow⟩ := hg
    subst hrow
    unfold rowLines at hlg
    have hb := foldl_pushTokenL_bound (rowTokens row) [] ""
      (rowTokens_length_le row) (by simp) (by simp)
    rcases List.mem_append.1 hlg with h | h
    · exact hb.1 l h
    · simp only [List.mem_singleton] at h
      subst h
      exact hb.2
  · with_unfolding_all decide
  · with_unfolding_all decide

set_option maxRecDepth 100000 in
/-- C5 witness: the length bound applied to the first wrapped line of
the uniformly filled 10×2 canvas. -/
theorem to_ppm_wrapping_witness :
    ("255 204 153 255 204 153 255 204 153 255 204 153 255 204 153 255 204"
      : String).length ≤ 70 :=
  to_ppm_wrapping.2.1 canvas10x2
    "255 204 153 255 204 153 255 204 153 255 204 153 255 204 153 255 204"
    (by with_unfolding_all decide)

/-- C9: serialization is deterministic — two canvases with the same
width, height and pixel grid serialize to the same string. -/
theorem to_ppm_deterministic (c1 c2 : Canvas) (hw : c1.width = c2.width)
    (hh : c1.height = c2.height) (hp : c1.pixels = c2.pixels) :
    c1.to_ppm = c2.to_ppm := by
  cases c1
  cases c2
  simp only at hw hh hp
  subst hw
  subst hh
  subst hp
  rfl

/-- C9 witness: instantiation at two identical 2×1 canvases. -/
theorem to_ppm_deterministic_witness :
    (Canvas.new 2 1).to_ppm = (⟨2, 1, [[Color.black, Color.black]]⟩ : Canvas).to_ppm :=
  to_ppm_deterministic (Canvas.new 2 1) ⟨2, 1, [[Color.black, Color.black]]⟩
    rfl rfl (by decide)

theorem foldlM_option_append {α β : Type} (f : β → α → Option β) (b : β)
    (l1 l2 : List α) :
    List.foldlM f b (l1 ++ l2) =
      (List.foldlM f b l1).bind (fun s => List.foldlM f s l2) := by
  induction l1 generalizing b with
  | nil => simp
  | cons a l ih =>
    simp only [List.cons_append, List.foldlM_cons]
    cases h : f b a with
    | none => simp [h]
    | some s => simp [h, ih s]

/-- The inner loop of `multiply_tuple` at row index `i`: when `i` is in
bounds of the accumulator, it adds the partial dot product to slot `i`
and leaves every other slot alone. -/
theorem foldlM_addAt_range (r : List ℚ) (t : Tuple) (i n : ℕ) (acc : List ℚ)
    (h : i < acc.length) :
    ∃ l, List.foldlM (fun a2 k => Matrix.addAt a2 i (r.getD k 0 * t.to_vec.getD k 0))
        acc (List.range n) = some l ∧
      l.length = acc.length ∧
      l.getD i 0 = acc.getD i 0 +
        ((List.range n).map (fun k => r.getD k 0 * t.to_vec.getD k 0)).sum ∧
      ∀ j, j ≠ i → l.getD j 0 = acc.getD j 0 := by
  induction n with
  | zero => exact ⟨acc, by simp, rfl, by simp, fun j _ => rfl⟩
  | succ n ih =>
    obtain ⟨l, hfold, hlen, hi, hj⟩ := ih
    have hil : i < l.length := by rw [hlen]; exact h
    refine ⟨l.set i (l.getD i 0 + r.getD n 0 * t.to_vec.getD n 0), ?_, ?_, ?_, ?_⟩
    · rw [List.range_succ, foldlM_option_append, hfold, Option.some_bind]
      simp only [List.foldlM_cons, List.foldlM_nil]
      rw [show Matrix.addAt l i (r.getD n 0 * t.to_vec.getD n 0) =
        some (l.set i (l.getD i 0 + r.getD n 0 * t.to_vec.getD n 0)) from by
          unfold Matrix.addAt; rw [if_pos hil]]
      rfl
    · rw [List.length_set, hlen]
    · rw [List.getD_eq_getElem?_getD, List.getElem?_set_self hil]
      simp only [Option.getD_some]
      rw [hi, List.range_succ, List.map_append, List.sum_append]
      simp [add_assoc]
    · intro j hji
      rw [List.getD_eq_getElem?_getD, List.getElem?_set_ne (fun hc => hji hc.symm),
        ← List.getD_eq_getElem?_getD]
      exact hj j hji

/-- The outer loop of `multiply_tuple`: folding at most four rows fills
slot `i` with the dot product of row `i` and the tuple. -/
theorem foldlM_mt_rows (values : List (List ℚ)) (t : Tuple) (rows : ℕ)
    (acc : List ℚ) (h : rows ≤ acc.length) :
    ∃ l, List.foldlM (fun a i => List.foldlM (fun a2 k =>
        Matrix.addAt a2 i ((values.getD i []).getD k 0 * t.to_vec.getD k 0)) a
        (List.range 4)) acc (List.range rows) = some l ∧
      l.length = acc.length ∧
      ∀ i, l.getD i 0 = if i < rows then
        acc.getD i 0 + dotRow (values.getD i []) t else acc.getD i 0 := by
  induction rows with
  | zero => exact ⟨acc, by simp, rfl, fun i => by simp⟩
  | succ n ih =>
    obtain ⟨l, hfold, hlen, hcomp⟩ := ih (Nat.le_of_succ_le h)
    have hnl : n < l.length := by rw [hlen]; omega
    obtain ⟨l2, hfold2, hlen2, hi2, hj2⟩ :=
      foldlM_addAt_range (values.getD n []) t n 4 l hnl
    refine ⟨l2, ?_, by rw [hlen2, hlen], ?_⟩
    · have hrs : List.range (n + 1) = List.range n ++ [n] := List.range_succ n
      rw [hrs, foldlM_option_append, hfold, Option.some_bind]
      simp only [List.foldlM_cons, List.foldlM_nil]
      rw [hfold2]
      rfl
    · intro i
      by_cases hin : i = n
      · subst hin
        rw [hi2, hcomp i, if_neg (by omega), if_pos (by omega)]
        rfl
      · rw [hj2 i hin, hcomp i]
        by_cases hlt : i < n
        · rw [if_pos hlt, if_pos (by omega)]
        · rw [if_neg hlt, if_neg (by omega)]

/-- More than four rows make the outer loop hit the out-of-bounds write
`result[4]`, so the whole fold fails. -/
theorem foldlM_mt_rows_none (values : List (List ℚ)) (t : Tuple) (rows : ℕ)
    (h : 4 < rows) :
    List.foldlM (fun a i => List.foldlM (fun a2 k =>
        Matrix.addAt a2 i ((values.getD i []).getD k 0 * t.to_vec.getD k 0)) a
        (List.range 4)) ([0, 0, 0, 0] : List ℚ) (List.range rows) = none := by
  induction rows with
  | zero => omega
  | succ n ih =>
    have hrs : List.range (n + 1) = List.range n ++ [n] := List.range_succ n
    rw [hrs, foldlM_option_append]
    by_cases h4 : 4 < n
    · rw [ih h4]
      rfl
    · have hn4 : n = 4 := by omega
      subst hn4
      obtain ⟨l, hfold, hlen, _⟩ := foldlM_mt_rows values t 4 [0, 0, 0, 0] (by simp)
      rw [hfold, Option.some_bind]
      simp only [List.foldlM_cons, List.foldlM_nil]
      rw [show List.range 4 = [0, 1, 2, 3] from rfl]
      simp only [List.foldlM_cons]
      rw [show Matrix.addAt l 4 ((values.getD 4 []).getD 0 0 * t.to_vec.getD 0 0)
          = none from by unfold Matrix.addAt; rw [if_neg (by rw [hlen]; decide)]]
      rfl

/-- C4 (amended): with a non-empty grid and exactly 4 columns, a matrix
with at most 4 rows yields a tuple whose component `i` is the dot
product of row `i` with the tuple for `i < rows` and 0 above — but a
matrix with more than 4 rows does not produce a tuple: the write to the
fixed 4-slot result array panics. -/
theorem multiply_tuple_rows (m : Matrix) (t : Tuple)
    (hne : m.values ≠ []) (hc : m.cols = 4) :
    (m.rows ≤ 4 → ∃ u, m.multiply_tuple t = some u ∧
      u.to_vec = (List.range 4).map
        (fun i => if i < m.rows then dotRow (m.values.getD i []) t else 0)) ∧
    (4 < m.rows → m.multiply_tuple t = none) := by
  obtain ⟨rows, cols, values⟩ := m
  simp only at hne hc ⊢
  subst hc
  unfold Matrix.multiply_tuple
  simp only
  rw [if_neg (by simpa using hne), if_neg (by simp)]
  constructor
  · intro hr
    obtain ⟨l, hfold, hlen, hcomp⟩ := foldlM_mt_rows values t rows [0, 0, 0, 0]
      (by simpa using hr)
    rw [hfold]
    refine ⟨⟨l.getD 0 0, l.getD 1 0, l.getD 2 0, l.getD 3 0⟩, rfl, ?_⟩
    unfold Tuple.to_vec
    rw [show List.range 4 = [0, 1, 2, 3] from rfl]
    simp only [List.map_cons, List.map_nil]
    rw [hcomp 0, hcomp 1, hcomp 2, hcomp 3]
    norm_num
  · intro hr
    rw [foldlM_mt_rows_none values t rows hr]

/-- C4 counterexample: `multiply_tuple` on a 5×4 matrix panics (the
loop writes `result[4]` into a `[f64; 4]` array) instead of producing a
tuple, contradicting the claim that any row count yields a result. -/
theorem multiply_tuple_5x4_panics :
    mat5x4.multiply_tuple (Tuple.new 1 2 3 4) = none := by
  with_unfolding_all decide

/-- C4 witness: the amended theorem applied to the concrete 2×4 matrix. -/
theorem multiply_tuple_rows_witness :
    ∃ u, mat2x4.multiply_tuple (Tuple.new 7 8 9 10) = some u ∧
      u.to_vec = (List.range 4).map
        (fun i => if i < mat2x4.rows then
          dotRow (mat2x4.values.getD i []) (Tuple.new 7 8 9 10) else 0) :=
  (multiply_tuple_rows mat2x4 (Tuple.new 7 8 9 10) (by decide) (by decide)).1
    (by decide)

end RayTracer
